import Mathlib

/-!
Verification of the motif-search scripts of the nanopore-barcoding repository.

Python strings are modelled as `List Char` (`Str`); Python `int` values that
are always non-negative are modelled as `Nat`, with subtraction carried out in
`Int` wherever the Python code may produce a negative intermediate value.
Each definition below is a shallow embedding of a function (or inline loop)
of one of the scripts under `scripts/`, named after the source symbol where
Lean allows it.
-/

/-- Python strings, as lists of characters. -/
abbrev Str := List Char

/-- ASCII single-character uppercasing, the effect of Python `str.upper()` on
the ASCII inputs handled by these scripts. -/
def upperChar (c : Char) : Char :=
  if 'a' ≤ c ∧ c ≤ 'z' then Char.ofNat (c.toNat - 32) else c

/-- Python whitespace characters stripped by `str.strip()` (ASCII subset). -/
def isPySpace (c : Char) : Bool :=
  c = ' ' ∨ c = '\t' ∨ c = '\n' ∨ c = '\x0b' ∨ c = '\x0c' ∨ c = '\r'

/-- Python `str.strip()`: remove leading and trailing whitespace. -/
def pyStrip (s : Str) : Str :=
  ((s.dropWhile isPySpace).reverse.dropWhile isPySpace).reverse

/-- `s[p:p+len(pat)] == pat` in Python: the pattern occurs at offset `p`. -/
def matchesAt (pat s : Str) (p : Nat) : Bool :=
  decide (p + pat.length ≤ s.length) && pat.isPrefixOf (s.drop p)

/-- Scan offsets `p, p+1, ...` (at most `fuel` of them) for the first
occurrence of `pat`, as Python `str.find` does. -/
def strFindAux (pat s : Str) : Nat → Nat → Option Nat
  | _, 0 => none
  | p, fuel+1 => if matchesAt pat s p then some p else strFindAux pat s (p+1) fuel

/-- Python `s.find(pat, start)`: smallest offset `≥ start` where `pat` occurs
(`none` for Python's `-1`).  Candidate offsets range over `[start, len(s)]`,
so `len(s) + 1 - start` steps of fuel are exhaustive. -/
def strFind (pat s : Str) (start : Nat) : Option Nat :=
  strFindAux pat s start (s.length + 1 - start)

/-- The adapter-position search loop of `adapter_position.py` (`process_fastq`,
lines 85-110): repeatedly `find` the adapter from `pos`, record the hit, and
resume at `pos + 1`; the loop runs while `pos < len(read_seq)`.  `pos`
strictly increases every iteration, so fuel `len(s) + 1` is exhaustive. -/
def adapterScanFrom (pat s : Str) : Nat → Nat → List Nat
  | _, 0 => []
  | pos, fuel+1 =>
    if pos < s.length then
      match strFind pat s pos with
      | none => []
      | some p => p :: adapterScanFrom pat s (p+1) fuel
    else []

/-- All match offsets reported for one adapter in one read by
`process_fastq` of `adapter_position.py`. -/
def findAdapterOccurrences (pat s : Str) : List Nat :=
  adapterScanFrom pat s 0 (s.length + 1)

/-- The position-categorisation of `process_fastq` in `adapter_position.py`
(lines 94-103): `position` is the 1-based match position.  The comparison
`position >= read_length - threshold` is on Python ints, so the subtraction
is carried out in `Int`. -/
def categorize (position readLength threshold : Nat) : Str :=
  if position ≤ threshold then "start".toList
  else if (position : Int) ≥ (readLength : Int) - (threshold : Int) then "end".toList
  else "middle".toList

/-- `reverse_complement` of `primer_search_rc_position.py` (lines 28-44):
complement lookup with identity fallback. -/
def complementChar (c : Char) : Char :=
  if c = 'A' then 'T' else if c = 'T' then 'A'
  else if c = 'G' then 'C' else if c = 'C' then 'G'
  else if c = 'R' then 'Y' else if c = 'Y' then 'R'
  else if c = 'S' then 'S' else if c = 'W' then 'W'
  else if c = 'K' then 'M' else if c = 'M' then 'K'
  else if c = 'B' then 'V' else if c = 'V' then 'B'
  else if c = 'D' then 'H' else if c = 'H' then 'D'
  else if c = 'N' then 'N'
  else if c = 'a' then 't' else if c = 't' then 'a'
  else if c = 'g' then 'c' else if c = 'c' then 'g'
  else if c = 'r' then 'y' else if c = 'y' then 'r'
  else if c = 's' then 's' else if c = 'w' then 'w'
  else if c = 'k' then 'm' else if c = 'm' then 'k'
  else if c = 'b' then 'v' else if c = 'v' then 'b'
  else if c = 'd' then 'h' else if c = 'h' then 'd'
  else if c = 'n' then 'n'
  else c

/-- `''.join(complement.get(base, base) for base in reversed(seq))`. -/
def reverse_complement (s : Str) : Str :=
  s.reverse.map complementChar

/-- The 15 IUPAC nucleotide codes, in either case. -/
def validSymbol (c : Char) : Bool :=
  c ∈ ['A','C','G','T','R','Y','S','W','K','M','B','D','H','V','N',
       'a','c','g','t','r','y','s','w','k','m','b','d','h','v','n']

/-- The forward/reverse search loop of `find_primer_in_sequence` in
`primer_search_rc_position.py` (lines 136-169): `while True: pos = find(...);
if pos == -1: break; record; start = pos + 1` (no `pos < len` guard).  Found
offsets strictly increase and lie in `[0, len(s)]`, so fuel `len(s) + 2` is
exhaustive. -/
def primerScanFrom (pat s : Str) : Nat → Nat → List Nat
  | _, 0 => []
  | start, fuel+1 =>
    match strFind pat s start with
    | none => []
    | some p => p :: primerScanFrom pat s (p+1) fuel

/-- `find_primer_in_sequence(sequence, primer_seq)` of
`primer_search_rc_position.py`: exact search of the upper-cased primer and of
its upper-cased reverse complement in the upper-cased read, forward hits
first, each tagged with its strand. -/
def find_primer_in_sequence (sequence primer_seq : Str) : List (Nat × Str) :=
  let seq_upper := sequence.map upperChar
  let primer_upper := primer_seq.map upperChar
  let primer_rc := (reverse_complement primer_seq).map upperChar
  (primerScanFrom primer_upper seq_upper 0 (seq_upper.length + 2)).map
      (fun p => (p, "fwd".toList))
    ++ (primerScanFrom primer_rc seq_upper 0 (seq_upper.length + 2)).map
      (fun p => (p, "rc".toList))

/-- The per-read record construction of `process_single_file` in
`primer_search_rc_position.py` (lines 249-259): when the simple search finds
nothing the read gets one record with position `0` and strand `unknown`,
otherwise one record per found `(position, strand)`. -/
def recordsForRead (primer_name : Str) (primer_seq sequence : Str) :
    List (Str × Nat × Str × Nat) :=
  let positions := find_primer_in_sequence sequence primer_seq
  if positions.isEmpty then [(primer_name, 0, "unknown".toList, sequence.length)]
  else positions.map (fun ps => (primer_name, ps.1, ps.2, sequence.length))

/-- The position-column conversion of `write_results_to_csv` in
`primer_search_rc_position.py` (line 344):
`output_pos = position + 1 if position > 0 else 0`. -/
def outputPos (position : Nat) : Nat :=
  if position > 0 then position + 1 else 0

/-- The valid-base alphabet of `load_adapters` in `adapter_presence.py`
(line 66): `set('ATGCNRYSWKMBDHV')`. -/
def valid_bases : Str := "ATGCNRYSWKMBDHV".toList

/-- `seq_bases.issubset(valid_bases)`: every character of the (already
upper-cased) sequence is a valid base. -/
def isValidSeq (s : Str) : Bool :=
  s.all (fun c => valid_bases.contains c)

/-- Python dict assignment `d[k] = v` on an insertion-ordered dict: replace
the value if the key exists (keeping its position), else append. -/
def dictInsert (k : Str) (v : Str) (d : List (Str × Str)) : List (Str × Str) :=
  if d.any (fun kv => kv.1 == k) then
    d.map (fun kv => if kv.1 == k then (kv.1, v) else kv)
  else d ++ [(k, v)]

/-- The record loop of `load_adapters` in `adapter_presence.py`
(lines 56-79): upper-case each sequence, skip it when it has a character
outside `valid_bases`, otherwise store it under its record id. -/
def load_adapters_loop : List (Str × Str) → List (Str × Str) → List (Str × Str)
  | adapters, [] => adapters
  | adapters, (name, rawSeq) :: rest =>
    let seq_str := rawSeq.map upperChar
    if isValidSeq seq_str then
      load_adapters_loop (dictInsert name seq_str adapters) rest
    else
      load_adapters_loop adapters rest

/-- `load_adapters` of `adapter_presence.py` (lines 56-85): `none` models the
fatal `sys.exit(1)` taken when no valid adapter remains. -/
def load_adapters (records : List (Str × Str)) : Option (List (Str × Str)) :=
  let adapters := load_adapters_loop [] records
  if adapters.isEmpty then none else some adapters

/-- The line loop of `parse_fasta` in `primer_search.py` (lines 26-51) and
`primer_search_rc_position.py` (lines 47-72): strip the line, skip empty
lines, on a header line set `current_name` to the text after `>` and before
the first `|`, and on a sequence line (when `current_name` is truthy) assign
`primers[current_name] = line.replace('*', '')`, overwriting any earlier
value for that name. -/
def parse_fasta_lines : Option Str → List (Str × Str) → List Str → List (Str × Str)
  | _, primers, [] => primers
  | current_name, primers, rawLine :: rest =>
    let line := pyStrip rawLine
    if line = [] then parse_fasta_lines current_name primers rest
    else if line.head? = some '>' then
      parse_fasta_lines (some ((line.drop 1).takeWhile (fun c => c ≠ '|'))) primers rest
    else
      match current_name with
      | some name =>
        if name ≠ [] then
          parse_fasta_lines current_name
            (dictInsert name (line.filter (fun c => c ≠ '*')) primers) rest
        else parse_fasta_lines current_name primers rest
      | none => parse_fasta_lines current_name primers rest

/-- `parse_fasta` applied to the list of lines of the primer file. -/
def parse_fasta (lines : List Str) : List (Str × Str) :=
  parse_fasta_lines none [] lines

/-- `write_header` of `adapter_presence.py` (lines 128-135): the five header
lines, the first of which interpolates `datetime.now()`. -/
def write_header_lines (now inputDir : Str) : List Str :=
  [ "# Adapter search results - ".toList ++ now,
    "# Format: ADAPTER_SEQUENCE | FILENAME | FORWARD_COUNT | REVERSE_COMPLEMENT_COUNT | TOTAL_COUNT".toList,
    "# Input directory: ".toList ++ inputDir,
    "# Generated using Python with Biopython for reverse complement calculation".toList,
    "".toList ]

/-- The full adapter-presence output: the header written by `write_header`
followed by the body lines appended by `main`, which are a function of the
adapters, files and counts only. -/
def adapter_presence_output (now inputDir : Str) (bodyLines : List Str) : List Str :=
  write_header_lines now inputDir ++ bodyLines

/-- Python string `<=`: lexicographic comparison by code point. -/
def lexLe : Str → Str → Bool
  | [], _ => true
  | _ :: _, [] => false
  | a :: as, b :: bs => if a = b then lexLe as bs else decide (a < b)

/-- Sorting key of Python `sorted` on `dict.items()`: compare entries by
their key (dict keys are unique, so the value component is never reached). -/
def keyLeRel {β : Type} (x y : Str × β) : Prop := lexLe x.1 y.1 = true

instance {β : Type} : DecidableRel (@keyLeRel β) :=
  fun x y => instDecidableEqBool (lexLe x.1 y.1) true

/-- Python `sorted` on a list of dict entries.  Python's sort is stable, but
the scripts only sort entry lists whose keys are distinct dict keys, for
which every sort w.r.t. the total key order produces the same list. -/
def pySorted {β : Type} (l : List (Str × β)) : List (Str × β) :=
  List.insertionSort keyLeRel l

/-- `write_results_to_csv` of `primer_search.py` (lines 222-248), data rows
only: files in sorted order, reads of each file in sorted order, and each
row carrying the read's primer list exactly as accumulated. -/
def write_results_rows (results : List (Str × List (Str × List Str))) :
    List (Str × Str × List Str) :=
  (pySorted results).flatMap
    (fun fr => (pySorted fr.2).map (fun hp => (fr.1, hp.1, hp.2)))

/-- Strict lexicographic order on `(file_name, read_id)` keys. -/
def pairKeyLt (k1 k2 : Str × Str) : Prop :=
  (lexLe k1.1 k2.1 = true ∧ k1.1 ≠ k2.1) ∨
  (k1.1 = k2.1 ∧ lexLe k1.2 k2.2 = true ∧ k1.2 ≠ k2.2)

/-- Strict ascending order of two output rows by their
`(file_name, read_id)` key. -/
def rowKeyLt (r1 r2 : Str × Str × List Str) : Prop :=
  pairKeyLt (r1.1, r1.2.1) (r2.1, r2.2.1)

/-- Python `defaultdict(list)` update `d[k].append(v)`. -/
def dictAppend (k : Str) (v : Str) (d : List (Str × List Str)) : List (Str × List Str) :=
  if d.any (fun kv => kv.1 == k) then
    d.map (fun kv => if kv.1 == k then (kv.1, kv.2 ++ [v]) else kv)
  else d ++ [(k, [v])]

/-- The accumulation loop of `process_single_file` in
`primer_amplicon_search.py` (lines 206-217): for every primer pair, append
the pair name to `read_amplicons[header]` for every header the pair was
found in. -/
def scanPairsDict (pairResults : List (Str × List Str)) : List (Str × List Str) :=
  pairResults.foldl (fun d pr => pr.2.foldl (fun d h => dictAppend h pr.1 d) d) []

/-- The `reads_with_amplicons` set accumulated alongside `read_amplicons`. -/
def readsWithAmplicons (pairResults : List (Str × List Str)) : Finset Str :=
  pairResults.foldl (fun s pr => pr.2.foldl (fun s h => insert h s) s) ∅

/-- `reads_no_amplicons = all_headers - reads_with_amplicons`
(`primer_amplicon_search.py` line 222). -/
def readsNoAmplicons (allHeaders : Finset Str) (pairResults : List (Str × List Str)) :
    Finset Str :=
  allHeaders \ readsWithAmplicons pairResults

/- ------------------------------------------------------------------ -/
/- Lemmas about the find loops                                         -/
/- ------------------------------------------------------------------ -/

theorem strFindAux_ge {pat s : Str} :
    ∀ {fuel p q : Nat}, strFindAux pat s p fuel = some q → p ≤ q := by
  intro fuel
  induction fuel with
  | zero => intro p q h; simp [strFindAux] at h
  | succ n ih =>
    intro p q h
    simp only [strFindAux] at h
    split at h
    · cases h; omega
    · exact Nat.le_of_succ_le (ih h)

theorem strFindAux_match {pat s : Str} :
    ∀ {fuel p q : Nat}, strFindAux pat s p fuel = some q → matchesAt pat s q = true := by
  intro fuel
  induction fuel with
  | zero => intro p q h; simp [strFindAux] at h
  | succ n ih =>
    intro p q h
    simp only [strFindAux] at h
    split at h
    · cases h; assumption
    · exact ih h

theorem strFindAux_lt {pat s : Str} :
    ∀ {fuel p q : Nat}, strFindAux pat s p fuel = some q → q < p + fuel := by
  intro fuel
  induction fuel with
  | zero => intro p q h; simp [strFindAux] at h
  | succ n ih =>
    intro p q h
    simp only [strFindAux] at h
    split at h
    · cases h; omega
    · have := ih h; omega

theorem strFindAux_min {pat s : Str} :
    ∀ {fuel p q : Nat}, strFindAux pat s p fuel = some q →
      ∀ r, p ≤ r → r < q → matchesAt pat s r = false := by
  intro fuel
  induction fuel with
  | zero => intro p q h; simp [strFindAux] at h
  | succ n ih =>
    intro p q h r hpr hrq
    simp only [strFindAux] at h
    split at h
    · cases h; omega
    · rcases Nat.eq_or_lt_of_le hpr with rfl | hlt
      · simp_all
      · exact ih h r hlt hrq

theorem strFindAux_none {pat s : Str} :
    ∀ {fuel p : Nat}, strFindAux pat s p fuel = none →
      ∀ r, p ≤ r → r < p + fuel → matchesAt pat s r = false := by
  intro fuel
  induction fuel with
  | zero => intro p _ r h1 h2; omega
  | succ n ih =>
    intro p h r hpr hrb
    simp only [strFindAux] at h
    split at h
    · cases h
    · rcases Nat.eq_or_lt_of_le hpr with rfl | hlt
      · simp_all
      · exact ih h r hlt (by omega)

theorem matchesAt_le_length {pat s : Str} {q : Nat}
    (h : matchesAt pat s q = true) : q + pat.length ≤ s.length := by
  simp only [matchesAt, Bool.and_eq_true, decide_eq_true_eq] at h
  exact h.1

theorem strFind_ge {pat s : Str} {st q : Nat} (h : strFind pat s st = some q) :
    st ≤ q :=
  strFindAux_ge h

theorem strFind_match {pat s : Str} {st q : Nat} (h : strFind pat s st = some q) :
    matchesAt pat s q = true :=
  strFindAux_match h

theorem strFind_le_length {pat s : Str} {st q : Nat} (h : strFind pat s st = some q) :
    q ≤ s.length := by
  have h1 := strFindAux_lt h
  have h2 := strFindAux_ge h
  omega

theorem strFind_min {pat s : Str} {st q : Nat} (h : strFind pat s st = some q) :
    ∀ r, st ≤ r → r < q → matchesAt pat s r = false :=
  strFindAux_min h

theorem strFind_none {pat s : Str} {st : Nat} (h : strFind pat s st = none) :
    ∀ r, st ≤ r → matchesAt pat s r = false := by
  intro r hr
  by_cases hrl : r ≤ s.length
  · exact strFindAux_none h r hr (by omega)
  · simp only [matchesAt]
    have : ¬ (r + pat.length ≤ s.length) := by omega
    simp [this]

/-- `strFind` finds some occurrence no later than any given occurrence. -/
theorem strFind_complete {pat s : Str} {st q : Nat}
    (hm : matchesAt pat s q = true) (hq : st ≤ q) :
    ∃ p, strFind pat s st = some p ∧ p ≤ q := by
  cases hfind : strFind pat s st with
  | none => exact absurd hm (by simp [strFind_none hfind q hq])
  | some p =>
    refine ⟨p, rfl, ?_⟩
    by_contra hlt
    have := strFind_min hfind q hq (by omega)
    simp [hm] at this

theorem adapterScanFrom_mem {pat s : Str} (hpat : pat ≠ []) :
    ∀ (fuel pos q : Nat), s.length + 1 - pos ≤ fuel →
      (q ∈ adapterScanFrom pat s pos fuel ↔ (pos ≤ q ∧ matchesAt pat s q = true)) := by
  intro fuel
  induction fuel with
  | zero =>
    intro pos q hfuel
    simp only [adapterScanFrom, List.not_mem_nil, false_iff]
    rintro ⟨hpq, hm⟩
    have := matchesAt_le_length hm
    have : 1 ≤ pat.length := Nat.one_le_iff_ne_zero.mpr (by simpa using hpat)
    omega
  | succ n ih =>
    intro pos q hfuel
    simp only [adapterScanFrom]
    split
    · cases hfind : strFind pat s pos with
      | none =>
        simp only [List.not_mem_nil, false_iff]
        rintro ⟨hpq, hm⟩
        have := strFind_none hfind q hpq
        simp [hm] at this
      | some p =>
        have hge := strFind_ge hfind
        have hle := strFind_le_length hfind
        have hm := strFind_match hfind
        rw [List.mem_cons, ih (p+1) q (by omega)]
        constructor
        · rintro (rfl | ⟨hq1, hq2⟩)
          · exact ⟨hge, hm⟩
          · exact ⟨by omega, hq2⟩
        · rintro ⟨hpq, hmq⟩
          by_cases hqp : q = p
          · exact Or.inl hqp
          · right
            refine ⟨?_, hmq⟩
            by_contra hlt
            have := strFind_min hfind q hpq (by omega)
            simp [hmq] at this
    · simp only [List.not_mem_nil, false_iff]
      rintro ⟨hpq, hm⟩
      have := matchesAt_le_length hm
      have : 1 ≤ pat.length := Nat.one_le_iff_ne_zero.mpr (by simpa using hpat)
      omega

/- ------------------------------------------------------------------ -/
/- C1 / C2: the position classifier                                    -/
/- ------------------------------------------------------------------ -/

/-- C1: for a match at 1-based position `p` in a read of length `L` with
threshold `t`, the classifier returns `start` iff `p ≤ t`, `end` iff
`p > t` and `p ≥ L − t`, and `middle` otherwise; in particular on a short
read where both the start and the end condition hold, `p ≤ t` alone decides
the outcome, so `start` takes precedence over `end`. -/
theorem categorize_start_end_middle_iff (p L t : Nat) :
    (categorize p L t = "start".toList ↔ p ≤ t) ∧
    (categorize p L t = "end".toList ↔ (t < p ∧ (p : Int) ≥ (L : Int) - (t : Int))) ∧
    (categorize p L t = "middle".toList ↔ (t < p ∧ (p : Int) < (L : Int) - (t : Int))) := by
  have hne1 : ("start".toList : Str) ≠ "end".toList := by decide
  have hne2 : ("start".toList : Str) ≠ "middle".toList := by decide
  have hne3 : ("end".toList : Str) ≠ "middle".toList := by decide
  unfold categorize
  split_ifs with ha hb <;> refine ⟨?_, ?_, ?_⟩ <;> simp_all <;> omega

/-- C2 counterexample: with threshold 50 on a 200-base read, the code labels
a match at 1-based position 150 as `end` (the end condition
`150 ≥ 200 − 50` is inclusive), not `middle` as claimed. -/
theorem categorize_position150_counterexample :
    categorize 150 200 50 = "end".toList ∧ ("end".toList : Str) ≠ "middle".toList := by
  decide

/-- C2 amended: with threshold 50, position 1 on a 200-base read is `start`,
positions 150 and 151 are both `end` (150 ≥ 200 − 50 already holds), and
position 49 on a 60-base read is `start`. -/
theorem categorize_threshold50_examples :
    categorize 1 200 50 = "start".toList ∧
    categorize 150 200 50 = "end".toList ∧
    categorize 151 200 50 = "end".toList ∧
    categorize 49 60 50 = "start".toList := by
  decide

/- ------------------------------------------------------------------ -/
/- C3: exact matching returns every overlapping occurrence             -/
/- ------------------------------------------------------------------ -/

/-- C3: in exact mode, for every non-empty pattern the adapter search loop
reports exactly the offsets at which the pattern occurs, overlapping
occurrences included; in particular pattern `AA` in read `AAA` yields the
overlapping matches at offsets 0 and 1. -/
theorem exact_search_finds_all_overlapping :
    (∀ (pat s : Str), pat ≠ [] →
      ∀ q, (q ∈ findAdapterOccurrences pat s ↔ matchesAt pat s q = true)) ∧
    findAdapterOccurrences ['A', 'A'] ['A', 'A', 'A'] = [0, 1] := by
  constructor
  · intro pat s hpat q
    rw [findAdapterOccurrences, adapterScanFrom_mem hpat (s.length + 1) 0 q (by omega)]
    simp
  · decide

theorem exact_search_finds_all_overlapping_witness :
    (['A', 'A'] : Str) ≠ [] ∧
    (1 ∈ findAdapterOccurrences ['A', 'A'] ['A', 'A', 'A'] ↔
      matchesAt ['A', 'A'] ['A', 'A', 'A'] 1 = true) :=
  ⟨by decide, exact_search_finds_all_overlapping.1 ['A', 'A'] ['A', 'A', 'A'] (by decide) 1⟩

/- ------------------------------------------------------------------ -/
/- C4: reverse complement is an involution on valid symbols            -/
/- ------------------------------------------------------------------ -/

theorem complementChar_involutive {c : Char} (h : validSymbol c = true) :
    complementChar (complementChar c) = c := by
  simp only [validSymbol, List.elem_eq_mem, decide_eq_true_eq] at h
  fin_cases h <;> rfl

/-- C4: `reverse_complement` is an involution on every pattern built only
from the 15 valid IUPAC symbols in either case. -/
theorem reverse_complement_involution (s : Str)
    (h : ∀ c ∈ s, validSymbol c = true) :
    reverse_complement (reverse_complement s) = s := by
  unfold reverse_complement
  simp only [List.map_reverse, List.reverse_reverse, List.map_map]
  have hcongr : s.map (complementChar ∘ complementChar) = s.map id :=
    List.map_congr_left (fun c hc => complementChar_involutive (h c hc))
  rw [hcongr, List.map_id]

def allValidSymbols : Str := "ACGTRYSWKMBDHVNacgtryswkmbdhvn".toList

theorem reverse_complement_involution_witness :
    (∀ c ∈ allValidSymbols, validSymbol c = true) ∧
    reverse_complement (reverse_complement allValidSymbols) = allValidSymbols :=
  ⟨by decide, reverse_complement_involution allValidSymbols (by decide)⟩

/- ------------------------------------------------------------------ -/
/- C9: determinism of the emitted bytes                                -/
/- ------------------------------------------------------------------ -/

def sampleNow1 : Str := "2025-01-01 10:00:00".toList

def sampleNow2 : Str := "2025-01-01 10:00:01".toList

/-- C9 counterexample: two runs of `adapter_presence.py` on identical inputs
but at different wall-clock times produce different bytes, because
`write_header` interpolates `datetime.now()` into the first output line. -/
theorem adapter_output_differs_across_runs :
    adapter_presence_output sampleNow1 ("data".toList) []
      ≠ adapter_presence_output sampleNow2 ("data".toList) [] := by
  decide

/-- C9 amended: the output is a deterministic function of the input data and
the run timestamp, and only the first header line depends on the timestamp:
all lines after it are byte-identical across runs on identical input. -/
theorem adapter_output_tail_timestamp_independent
    (now1 now2 inputDir : Str) (body : List Str) :
    (adapter_presence_output now1 inputDir body).tail
      = (adapter_presence_output now2 inputDir body).tail := by
  simp [adapter_presence_output, write_header_lines]

/- ------------------------------------------------------------------ -/
/- C10: position column 0 is ambiguous                                 -/
/- ------------------------------------------------------------------ -/

/-- C10: the position-reporting primer script emits position-column `0` both
for a genuine strand match at 0-based offset 0 (here `AACG` at the start of
read `AACGGG`) and for a record whose position could not be determined
(strand `unknown`, stored with position 0), because the 1-based conversion
`position + 1` is applied only when the 0-based offset is strictly positive;
for every positive offset the emitted column is `offset + 1`. -/
theorem offset_zero_position_column_ambiguity :
    recordsForRead ("P".toList) ("AACG".toList) ("AACGGG".toList)
      = [("P".toList, 0, "fwd".toList, 6)] ∧
    recordsForRead ("Q".toList) ("ANGT".toList) ("AACGGG".toList)
      = [("Q".toList, 0, "unknown".toList, 6)] ∧
    outputPos 0 = 0 ∧
    (∀ p : Nat, 0 < p → outputPos p = p + 1) := by
  refine ⟨by decide, by decide, by decide, ?_⟩
  intro p hp
  simp [outputPos, hp]

theorem offset_zero_position_column_ambiguity_witness :
    0 < 5 ∧ outputPos 5 = 5 + 1 :=
  ⟨by decide, offset_zero_position_column_ambiguity.2.2.2 5 (by decide)⟩

/- ------------------------------------------------------------------ -/
/- C8: multi-line motif records                                        -/
/- ------------------------------------------------------------------ -/

/-- C8 counterexample: for a record `>P` with sequence lines `AC` and `GT`,
`parse_fasta` stores `GT` (each sequence line overwrites the previous one),
not the concatenation `ACGT` the claim requires. -/
theorem parse_fasta_overwrite_counterexample :
    parse_fasta [">P".toList, "AC".toList, "GT".toList]
      = [("P".toList, "GT".toList)] ∧
    ("P".toList, "ACGT".toList) ∉ parse_fasta [">P".toList, "AC".toList, "GT".toList] := by
  decide

theorem dictInsert_nil (k v : Str) : dictInsert k v [] = [(k, v)] := by
  simp [dictInsert]

theorem dictInsert_single (k v w : Str) : dictInsert k v [(k, w)] = [(k, v)] := by
  simp [dictInsert]

theorem foldl_keep_last (f : Str → Str) :
    ∀ (ls : List Str) (hne : ls ≠ []) (v : Str),
      ls.foldl (fun _ l => f l) v = f (ls.getLast hne) := by
  intro ls
  induction ls with
  | nil => intro h; exact absurd rfl h
  | cons a rest ih =>
    intro hne v
    cases rest with
    | nil => simp [List.foldl, List.getLast]
    | cons b t =>
      have h1 : List.foldl (fun _ l => f l) v (a :: b :: t)
          = List.foldl (fun _ l => f l) (f a) (b :: t) := rfl
      have h2 : (a :: b :: t).getLast hne = (b :: t).getLast (by simp) :=
        List.getLast_cons (by simp)
      rw [h1, ih (by simp) (f a), h2]

theorem parse_fasta_lines_seq (name : Str) (hname : name ≠ []) :
    ∀ (ls : List Str) (v : Str),
      (∀ l ∈ ls, pyStrip l = l ∧ l ≠ [] ∧ l.head? ≠ some '>') →
      parse_fasta_lines (some name) [(name, v)] ls
        = [(name, ls.foldl (fun _ l => l.filter (fun c => c ≠ '*')) v)] := by
  intro ls
  induction ls with
  | nil => intro v _; simp [parse_fasta_lines]
  | cons l rest ih =>
    intro v hl
    obtain ⟨hstrip, hne, hhd⟩ := hl l (by simp)
    simp only [parse_fasta_lines, hstrip]
    rw [if_neg hne, if_neg hhd, if_pos hname, dictInsert_single]
    exact ih (l.filter (fun c => c ≠ '*')) (fun x hx => hl x (by simp [hx]))

/-- C8 amended: a record whose identifier line is followed by one or more
sequence lines stores the LAST sequence line (asterisks stripped), each
sequence line overwriting the previous one — not the concatenation of the
lines. -/
theorem parse_fasta_multiline_last_line (name : Str) (ls : List Str) (hne : ls ≠ [])
    (hheader : pyStrip ('>' :: name) = '>' :: name)
    (hname : name.takeWhile (fun c => c ≠ '|') ≠ [])
    (hls : ∀ l ∈ ls, pyStrip l = l ∧ l ≠ [] ∧ l.head? ≠ some '>') :
    parse_fasta (('>' :: name) :: ls)
      = [(name.takeWhile (fun c => c ≠ '|'),
          (ls.getLast hne).filter (fun c => c ≠ '*'))] := by
  cases ls with
  | nil => exact absurd rfl hne
  | cons l1 rest =>
    obtain ⟨hstrip1, hne1, hhd1⟩ := hls l1 (by simp)
    unfold parse_fasta
    simp only [parse_fasta_lines, hheader]
    rw [if_neg (by simp), if_pos (by simp)]
    simp only [List.drop_one, List.tail_cons]
    simp only [parse_fasta_lines, hstrip1]
    rw [if_neg hne1, if_neg hhd1, if_pos hname, dictInsert_nil]
    cases rest with
    | nil => simp [parse_fasta_lines, List.getLast]
    | cons l2 t =>
      have hlast : (l1 :: l2 :: t).getLast hne = (l2 :: t).getLast (by simp) :=
        List.getLast_cons (by simp)
      rw [parse_fasta_lines_seq _ hname (l2 :: t) _
            (fun x hx => hls x (by simp [hx]))]
      rw [foldl_keep_last _ (l2 :: t) (by simp), hlast]

theorem parse_fasta_multiline_last_line_witness :
    ((["AC".toList, "GT".toList] : List Str) ≠ []) ∧
    parse_fasta (('>' :: "P".toList) :: ["AC".toList, "GT".toList])
      = [("P".toList.takeWhile (fun c => c ≠ '|'),
          ((["AC".toList, "GT".toList] : List Str).getLast (by decide)).filter
            (fun c => c ≠ '*'))] :=
  ⟨by decide,
   parse_fasta_multiline_last_line ("P".toList) ["AC".toList, "GT".toList]
     (by decide) (by decide) (by decide) (by decide)⟩

/- ------------------------------------------------------------------ -/
/- C5: invalid motifs are skipped; failure iff nothing valid remains   -/
/- ------------------------------------------------------------------ -/

theorem dictInsert_ne_nil (k v : Str) (d : List (Str × Str)) :
    dictInsert k v d ≠ [] := by
  cases d with
  | nil => simp [dictInsert]
  | cons a t => unfold dictInsert; split <;> simp

theorem dictInsert_values {k v : Str} {d : List (Str × Str)} :
    ∀ kv ∈ dictInsert k v d, kv ∈ d ∨ kv.2 = v := by
  intro kv hkv
  unfold dictInsert at hkv
  split at hkv
  · obtain ⟨a, ha, hval⟩ := List.mem_map.mp hkv
    by_cases hak : a.1 == k
    · right; rw [if_pos hak] at hval; rw [← hval]
    · left; rw [if_neg hak] at hval; rw [← hval]; exact ha
  · rcases List.mem_append.mp hkv with h | h
    · exact Or.inl h
    · right; simp at h; rw [h]

theorem load_adapters_loop_ne_nil :
    ∀ (rest acc : List (Str × Str)), acc ≠ [] → load_adapters_loop acc rest ≠ [] := by
  intro rest
  induction rest with
  | nil => intro acc h; simpa [load_adapters_loop] using h
  | cons r t ih =>
    intro acc h
    obtain ⟨name, rawSeq⟩ := r
    simp only [load_adapters_loop]
    split
    · exact ih _ (dictInsert_ne_nil name (rawSeq.map upperChar) acc)
    · exact ih _ h

theorem load_adapters_loop_all_invalid :
    ∀ (rest acc : List (Str × Str)),
      (∀ r ∈ rest, isValidSeq (r.2.map upperChar) = false) →
      load_adapters_loop acc rest = acc := by
  intro rest
  induction rest with
  | nil => intro acc _; rfl
  | cons r t ih =>
    intro acc hall
    obtain ⟨name, rawSeq⟩ := r
    have hhead : isValidSeq (rawSeq.map upperChar) = false := hall (name, rawSeq) (by simp)
    simp only [load_adapters_loop]
    rw [if_neg (by simp [hhead])]
    exact ih acc (fun x hx => hall x (by simp [hx]))

theorem load_adapters_loop_valid_ne_nil :
    ∀ (rest acc : List (Str × Str)),
      (∃ r ∈ rest, isValidSeq (r.2.map upperChar) = true) →
      load_adapters_loop acc rest ≠ [] := by
  intro rest
  induction rest with
  | nil => intro acc h; simp at h
  | cons r t ih =>
    intro acc hex
    obtain ⟨name, rawSeq⟩ := r
    simp only [load_adapters_loop]
    split
    · exact load_adapters_loop_ne_nil t _ (dictInsert_ne_nil name (rawSeq.map upperChar) acc)
    · rcases hex with ⟨x, hx, hxv⟩
      rcases List.mem_cons.mp hx with rfl | hxt
      · simp_all
      · exact ih acc ⟨x, hxt, hxv⟩

theorem load_adapters_loop_valid_values :
    ∀ (rest acc : List (Str × Str)),
      (∀ kv ∈ acc, isValidSeq kv.2 = true) →
      ∀ kv ∈ load_adapters_loop acc rest, isValidSeq kv.2 = true := by
  intro rest
  induction rest with
  | nil => intro acc hacc; simpa [load_adapters_loop] using hacc
  | cons r t ih =>
    intro acc hacc
    obtain ⟨name, rawSeq⟩ := r
    simp only [load_adapters_loop]
    split
    · refine ih _ (fun kv hkv => ?_)
      rcases dictInsert_values kv hkv with h | h
      · exact hacc kv h
      · rw [h]; assumption
    · exact ih acc hacc

theorem load_adapters_none_iff (records : List (Str × Str)) :
    load_adapters records = none ↔ load_adapters_loop [] records = [] := by
  simp only [load_adapters]
  split
  · simp_all [List.isEmpty_iff]
  · simp_all [List.isEmpty_iff]

/-- C5: loading the adapter table skips every record whose (upper-cased)
sequence contains a symbol outside the 15 valid IUPAC codes — a returned
table holds only valid sequences — and the load fails (the fatal exit,
modelled as `none`) if and only if no valid record remains. -/
theorem load_adapters_skip_invalid_fail_iff_empty (records : List (Str × Str)) :
    (load_adapters records = none ↔
      ∀ r ∈ records, isValidSeq (r.2.map upperChar) = false) ∧
    (∀ t, load_adapters records = some t → ∀ kv ∈ t, isValidSeq kv.2 = true) := by
  constructor
  · constructor
    · intro h
      by_contra hex
      push_neg at hex
      obtain ⟨r, hr, hrv⟩ := hex
      have hvalid : isValidSeq (r.2.map upperChar) = true := by
        cases hb : isValidSeq (r.2.map upperChar)
        · exact absurd hb hrv
        · rfl
      exact load_adapters_loop_valid_ne_nil records [] ⟨r, hr, hvalid⟩
        ((load_adapters_none_iff records).mp h)
    · intro hall
      rw [load_adapters_none_iff records]
      exact load_adapters_loop_all_invalid records [] hall
  · intro t ht kv hkv
    have hteq : t = load_adapters_loop [] records := by
      simp only [load_adapters] at ht
      split at ht
      · cases ht
      · cases ht; rfl
    rw [hteq] at hkv
    exact load_adapters_loop_valid_values records [] (by simp) kv hkv

def sampleAdapterRecords : List (Str × Str) :=
  [("bad".toList, "AXG".toList), ("good".toList, "acgt".toList)]

theorem load_adapters_skip_invalid_fail_iff_empty_witness :
    load_adapters sampleAdapterRecords = some [("good".toList, "ACGT".toList)] ∧
    isValidSeq ("ACGT".toList) = true :=
  ⟨by decide,
   (load_adapters_skip_invalid_fail_iff_empty sampleAdapterRecords).2
     [("good".toList, "ACGT".toList)] (by decide)
     ("good".toList, "ACGT".toList) (by decide)⟩

/- ------------------------------------------------------------------ -/
/- C7: match table and no-amplicon set partition the reads             -/
/- ------------------------------------------------------------------ -/

theorem mem_foldl_insert (hs : List Str) :
    ∀ (s : Finset Str) (h : Str),
      (h ∈ hs.foldl (fun s x => insert x s) s ↔ h ∈ s ∨ h ∈ hs) := by
  induction hs with
  | nil => simp
  | cons a t ih =>
    intro s h
    rw [List.foldl_cons, ih]
    simp only [Finset.mem_insert, List.mem_cons]
    tauto

theorem mem_readsWithAmplicons (pairResults : List (Str × List Str)) (h : Str) :
    h ∈ readsWithAmplicons pairResults ↔ ∃ pr ∈ pairResults, h ∈ pr.2 := by
  have hgen : ∀ (prs : List (Str × List Str)) (s : Finset Str),
      (h ∈ prs.foldl (fun s pr => pr.2.foldl (fun s x => insert x s) s) s ↔
        h ∈ s ∨ ∃ pr ∈ prs, h ∈ pr.2) := by
    intro prs
    induction prs with
    | nil => simp
    | cons a t ih =>
      intro s
      rw [List.foldl_cons, ih, mem_foldl_insert]
      simp only [List.mem_cons]
      constructor
      · rintro ((hs | ha) | ⟨pr, hpr, hh⟩)
        · exact Or.inl hs
        · exact Or.inr ⟨a, Or.inl rfl, ha⟩
        · exact Or.inr ⟨pr, Or.inr hpr, hh⟩
      · rintro (hs | ⟨pr, (rfl | hpr), hh⟩)
        · exact Or.inl (Or.inl hs)
        · exact Or.inl (Or.inr hh)
        · exact Or.inr ⟨pr, hpr, hh⟩
  rw [readsWithAmplicons, hgen]
  simp

theorem dictAppend_hasKey (k v : Str) (d : List (Str × List Str)) (h : Str) :
    (∃ l, (h, l) ∈ dictAppend k v d) ↔ h = k ∨ ∃ l, (h, l) ∈ d := by
  unfold dictAppend
  split
  · rename_i hany
    constructor
    · rintro ⟨l, hl⟩
      obtain ⟨kv, hkv, heq⟩ := List.mem_map.mp hl
      by_cases hk : kv.1 == k
      · rw [if_pos hk] at heq
        have h1 : kv.1 = h := congrArg Prod.fst heq
        have h2 : kv.1 = k := by simpa using hk
        exact Or.inl (h1 ▸ h2)
      · rw [if_neg hk] at heq
        exact Or.inr ⟨l, heq ▸ hkv⟩
    · rintro (rfl | ⟨l, hl⟩)
      · obtain ⟨kv, hkv, hk⟩ := List.any_eq_true.mp hany
        have hkeq : kv.1 = h := by simpa using hk
        refine ⟨kv.2 ++ [v], List.mem_map.mpr ⟨kv, hkv, ?_⟩⟩
        rw [if_pos (by simpa using hk)]
        rw [hkeq]
      · by_cases hk : h = k
        · obtain ⟨kv, hkv, hk2⟩ := List.any_eq_true.mp hany
          have hkeq : kv.1 = k := by simpa using hk2
          refine ⟨kv.2 ++ [v], List.mem_map.mpr ⟨kv, hkv, ?_⟩⟩
          rw [if_pos (by simpa using hk2)]
          rw [hkeq, hk]
        · refine ⟨l, List.mem_map.mpr ⟨(h, l), hl, ?_⟩⟩
          rw [if_neg (by simpa using hk)]
  · constructor
    · rintro ⟨l, hl⟩
      rcases List.mem_append.mp hl with hmem | hmem
      · exact Or.inr ⟨l, hmem⟩
      · simp only [List.mem_singleton, Prod.mk.injEq] at hmem
        exact Or.inl hmem.1
    · rintro (rfl | ⟨l, hl⟩)
      · exact ⟨[v], List.mem_append.mpr (Or.inr (by simp))⟩
      · exact ⟨l, List.mem_append.mpr (Or.inl hl)⟩

theorem foldl_dictAppend_hasKey (hs : List Str) (p : Str) :
    ∀ (d : List (Str × List Str)) (h : Str),
      ((∃ l, (h, l) ∈ hs.foldl (fun d x => dictAppend x p d) d) ↔
        (∃ l, (h, l) ∈ d) ∨ h ∈ hs) := by
  induction hs with
  | nil => simp
  | cons a t ih =>
    intro d h
    rw [List.foldl_cons, ih, dictAppend_hasKey]
    simp only [List.mem_cons]
    tauto

theorem scanPairsDict_hasKey (pairResults : List (Str × List Str)) (h : Str) :
    (∃ l, (h, l) ∈ scanPairsDict pairResults) ↔ ∃ pr ∈ pairResults, h ∈ pr.2 := by
  have hgen : ∀ (prs : List (Str × List Str)) (d : List (Str × List Str)),
      ((∃ l, (h, l) ∈ prs.foldl (fun d pr => pr.2.foldl (fun d x => dictAppend x pr.1 d) d) d) ↔
        (∃ l, (h, l) ∈ d) ∨ ∃ pr ∈ prs, h ∈ pr.2) := by
    intro prs
    induction prs with
    | nil => simp
    | cons a t ih =>
      intro d
      rw [List.foldl_cons, ih, foldl_dictAppend_hasKey]
      simp only [List.mem_cons]
      constructor
      · rintro ((hd | ha) | ⟨pr, hpr, hh⟩)
        · exact Or.inl hd
        · exact Or.inr ⟨a, Or.inl rfl, ha⟩
        · exact Or.inr ⟨pr, Or.inr hpr, hh⟩
      · rintro (hd | ⟨pr, (rfl | hpr), hh⟩)
        · exact Or.inl (Or.inl hd)
        · exact Or.inl (Or.inr hh)
        · exact Or.inr ⟨pr, hpr, hh⟩
  rw [scanPairsDict, hgen]
  simp

/-- C7: for every read of the file, a read found by no primer pair lands in
the no-amplicon set and has no row in the match table, a read found by at
least one pair has a match-table entry and is not in the no-amplicon set,
the two output parts are disjoint, and together they cover all reads; every
match-table key is a read of the file. -/
theorem amplicon_partition_disjoint_cover
    (allHeaders : Finset Str) (pairResults : List (Str × List Str))
    (hsub : ∀ pr ∈ pairResults, ∀ h ∈ pr.2, h ∈ allHeaders) :
    (∀ h ∈ allHeaders,
      ((¬ ∃ pr ∈ pairResults, h ∈ pr.2) →
        (h ∈ readsNoAmplicons allHeaders pairResults ∧
          ¬ ∃ l, (h, l) ∈ scanPairsDict pairResults)) ∧
      ((∃ pr ∈ pairResults, h ∈ pr.2) →
        (h ∉ readsNoAmplicons allHeaders pairResults ∧
          ∃ l, (h, l) ∈ scanPairsDict pairResults)) ∧
      ¬ (h ∈ readsNoAmplicons allHeaders pairResults ∧
          ∃ l, (h, l) ∈ scanPairsDict pairResults) ∧
      (h ∈ readsNoAmplicons allHeaders pairResults ∨
          ∃ l, (h, l) ∈ scanPairsDict pairResults)) ∧
    (∀ h l, (h, l) ∈ scanPairsDict pairResults → h ∈ allHeaders) := by
  constructor
  · intro h hh
    have hno : h ∈ readsNoAmplicons allHeaders pairResults ↔
        ¬ ∃ pr ∈ pairResults, h ∈ pr.2 := by
      rw [readsNoAmplicons, Finset.mem_sdiff, mem_readsWithAmplicons]
      constructor
      · rintro ⟨_, hn⟩; exact hn
      · intro hn; exact ⟨hh, hn⟩
    have hdict := scanPairsDict_hasKey pairResults h
    refine ⟨?_, ?_, ?_, ?_⟩
    · intro hn; exact ⟨hno.mpr hn, fun hex => hn (hdict.mp hex)⟩
    · intro hex; exact ⟨fun hmem => (hno.mp hmem) hex, hdict.mpr hex⟩
    · rintro ⟨hmem, hex⟩; exact (hno.mp hmem) (hdict.mp hex)
    · by_cases hex : ∃ pr ∈ pairResults, h ∈ pr.2
      · exact Or.inr (hdict.mpr hex)
      · exact Or.inl (hno.mpr hex)
  · intro h l hl
    obtain ⟨pr, hpr, hh⟩ := (scanPairsDict_hasKey pairResults h).mp ⟨l, hl⟩
    exact hsub pr hpr h hh

def sampleAllHeaders : Finset Str := {"r1".toList, "r2".toList}

def samplePairResults : List (Str × List Str) := [("PairA".toList, ["r1".toList])]

theorem amplicon_partition_disjoint_cover_witness :
    (∀ pr ∈ samplePairResults, ∀ h ∈ pr.2, h ∈ sampleAllHeaders) ∧
    ("r2".toList ∈ sampleAllHeaders) ∧
    (("r2".toList ∈ readsNoAmplicons sampleAllHeaders samplePairResults ∨
        ∃ l, ("r2".toList, l) ∈ scanPairsDict samplePairResults)) :=
  ⟨by decide, by decide,
   (((amplicon_partition_disjoint_cover sampleAllHeaders samplePairResults
        (by decide)).1 ("r2".toList) (by decide)).2.2.2)⟩

/- ------------------------------------------------------------------ -/
/- C6: output rows sorted by (file, read); motifs in insertion order   -/
/- ------------------------------------------------------------------ -/

theorem lexLe_total : ∀ (a b : Str), lexLe a b = true ∨ lexLe b a = true := by
  intro a
  induction a with
  | nil => intro b; left; rfl
  | cons x xs ih =>
    intro b
    cases b with
    | nil => right; rfl
    | cons y ys =>
      by_cases hxy : x = y
      · subst hxy
        simp only [lexLe, if_pos rfl]
        exact ih ys
      · rcases lt_or_gt_of_ne hxy with hlt | hgt
        · left; simp [lexLe, hxy, hlt]
        · right; simp [lexLe, Ne.symm hxy, hgt]

theorem lexLe_trans : ∀ {a b c : Str},
    lexLe a b = true → lexLe b c = true → lexLe a c = true := by
  intro a
  induction a with
  | nil => intro b c _ _; rfl
  | cons x xs ih =>
    intro b c hab hbc
    cases b with
    | nil => simp [lexLe] at hab
    | cons y ys =>
      cases c with
      | nil => simp [lexLe] at hbc
      | cons z zs =>
        by_cases hxy : x = y
        · subst hxy
          by_cases hxz : x = z
          · subst hxz
            simp only [lexLe, if_pos rfl] at hab hbc ⊢
            exact ih hab hbc
          · simp only [lexLe, if_neg hxz] at hbc ⊢
            exact hbc
        · by_cases hyz : y = z
          · subst hyz
            simp only [lexLe, if_neg hxy] at hab ⊢
            exact hab
          · simp only [lexLe, if_neg hxy] at hab
            simp only [lexLe, if_neg hyz] at hbc
            have h1 : x < y := of_decide_eq_true hab
            have h2 : y < z := of_decide_eq_true hbc
            have hxz : x < z := lt_trans h1 h2
            simp only [lexLe, if_neg (ne_of_lt hxz)]
            exact decide_eq_true hxz

theorem pairwise_pySorted_le {β : Type} (l : List (Str × β)) :
    (pySorted l).Pairwise keyLeRel := by
  haveI ht : IsTotal (Str × β) keyLeRel := ⟨fun a b => lexLe_total a.1 b.1⟩
  haveI htr : IsTrans (Str × β) keyLeRel := ⟨fun _ _ _ hab hbc => lexLe_trans hab hbc⟩
  exact List.sorted_insertionSort keyLeRel l

theorem mem_pySorted {β : Type} {x : Str × β} {l : List (Str × β)} :
    x ∈ pySorted l ↔ x ∈ l :=
  (List.perm_insertionSort keyLeRel l).mem_iff

theorem pairwise_pySorted_strict {β : Type} (l : List (Str × β))
    (h : (l.map Prod.fst).Nodup) :
    (pySorted l).Pairwise (fun a b => lexLe a.1 b.1 = true ∧ a.1 ≠ b.1) := by
  have h1 := pairwise_pySorted_le l
  have h2 : ((pySorted l).map Prod.fst).Nodup :=
    ((List.perm_insertionSort keyLeRel l).map Prod.fst).nodup_iff.mpr h
  have h2' : List.Pairwise (fun u v : Str => u ≠ v) ((pySorted l).map Prod.fst) := h2
  have h3 : (pySorted l).Pairwise (fun a b => a.1 ≠ b.1) := List.pairwise_map.mp h2'
  exact h1.and h3

/-- C6: the data rows emitted by `write_results_to_csv` are sorted strictly
ascending lexicographically by the `(file_name, read_id)` key (given that
file names and, within a file, read ids are distinct, as dict keys are), and
a row `(f, h, ps)` appears exactly when the aggregator holds the motif list
`ps` for read `h` of file `f` — the motif list is emitted verbatim, in
insertion order, with no secondary sort. -/
theorem results_rows_sorted_and_insertion_order
    (results : List (Str × List (Str × List Str)))
    (hfiles : (results.map Prod.fst).Nodup)
    (hreads : ∀ fr ∈ results, (fr.2.map Prod.fst).Nodup) :
    (write_results_rows results).Pairwise rowKeyLt ∧
    (∀ f h ps, ((f, h, ps) ∈ write_results_rows results ↔
      ∃ reads, (f, reads) ∈ results ∧ (h, ps) ∈ reads)) := by
  constructor
  · simp only [write_results_rows]
    rw [List.flatMap_def, List.pairwise_flatten]
    constructor
    · intro block hblock
      obtain ⟨fr, hfr, rfl⟩ := List.mem_map.mp hblock
      rw [List.pairwise_map]
      have hfr' : fr ∈ results := mem_pySorted.mp hfr
      have hstrict := pairwise_pySorted_strict fr.2 (hreads fr hfr')
      refine hstrict.imp ?_
      intro hp1 hp2 hab
      exact Or.inr ⟨rfl, hab.1, hab.2⟩
    · rw [List.pairwise_map]
      have hstrict := pairwise_pySorted_strict results hfiles
      refine hstrict.imp ?_
      intro fr1 fr2 hlt x hx y hy
      obtain ⟨hp1, hhp1, rfl⟩ := List.mem_map.mp hx
      obtain ⟨hp2, hhp2, rfl⟩ := List.mem_map.mp hy
      exact Or.inl ⟨hlt.1, hlt.2⟩
  · intro f h ps
    simp only [write_results_rows]
    rw [List.mem_flatMap]
    constructor
    · rintro ⟨fr, hfr, hmem⟩
      obtain ⟨hp, hhp, heq⟩ := List.mem_map.mp hmem
      have hf : fr.1 = f := congrArg Prod.fst heq
      have hh : hp.1 = h := congrArg (fun r => r.2.1) heq
      have hps : hp.2 = ps := congrArg (fun r => r.2.2) heq
      refine ⟨fr.2, ?_, ?_⟩
      · have hin : fr ∈ results := mem_pySorted.mp hfr
        have h1 : (fr.1, fr.2) ∈ results := by rw [Prod.mk.eta]; exact hin
        rwa [hf] at h1
      · have hmem2 : hp ∈ fr.2 := mem_pySorted.mp hhp
        have h2 : (hp.1, hp.2) ∈ fr.2 := by rw [Prod.mk.eta]; exact hmem2
        rwa [hh, hps] at h2
    · rintro ⟨reads, hmem, hhp⟩
      refine ⟨(f, reads), mem_pySorted.mpr hmem, ?_⟩
      exact List.mem_map.mpr ⟨(h, ps), mem_pySorted.mpr hhp, rfl⟩

def sampleResults : List (Str × List (Str × List Str)) :=
  [("b.fq".toList, [("r2".toList, ["P2".toList, "P1".toList]),
                    ("r1".toList, ["P3".toList])]),
   ("a.fq".toList, [("r9".toList, [])])]

theorem results_rows_sorted_and_insertion_order_witness :
    (sampleResults.map Prod.fst).Nodup ∧
    (write_results_rows sampleResults).Pairwise rowKeyLt :=
  ⟨by decide,
   (results_rows_sorted_and_insertion_order sampleResults (by decide) (by decide)).1⟩
